import Mathlib

/-
Verification of the query planning core of LocustDB
(src/engine/planning/query.rs): a shallow embedding of the
expression model, `Query::normalize`, `Query::extract_aggregators`,
and of the decision logic of `NormalFormQuery::run` and
`NormalFormQuery::run_aggregate`, together with theorems about the
normal-form invariants and the planner's strategy choices.
-/

namespace LocustDB

/-- Aggregator enumeration (`Aggregator { Count, Sum }`). -/
inductive Aggregator where
  | Count
  | Sum
deriving DecidableEq

/-- Unary operator tags (`Func1Type`); the closed operator enumeration lives
outside the planning module, so operators are represented opaquely by number. -/
abbrev Func1Type := Nat

/-- Binary operator tags (`Func2Type`), represented opaquely by number. -/
abbrev Func2Type := Nat

/-- Modelled from the spec: `RawVal` (ingest::raw_val) is a literal of a
primitive type (integer, string, null); `normalize` uses `RawVal::Int(1)`. -/
inductive RawVal where
  | Int : Int → RawVal
  | Str : String → RawVal
  | Null : RawVal
deriving DecidableEq

/-- `LimitClause { limit, offset }` (syntax::limit). -/
structure LimitClause where
  limit : Nat
  offset : Nat
deriving DecidableEq

/-- The expression model (`syntax::expression::Expr`): column reference,
constant, unary function, binary function, aggregate application. -/
inductive Expr where
  | ColName : String → Expr
  | Const : RawVal → Expr
  | Func1 : Func1Type → Expr → Expr
  | Func2 : Func2Type → Expr → Expr → Expr
  | Aggregate : Aggregator → Expr → Expr
deriving DecidableEq

/-- `NormalFormQuery` (query.rs lines 17-23). -/
structure NormalFormQuery where
  projection : List Expr
  filter : Expr
  aggregate : List (Aggregator × Expr)
  order_by : List (Expr × Bool)
  limit : LimitClause
deriving DecidableEq

/-- `Query` (query.rs lines 26-32). -/
structure Query where
  select : List Expr
  table : String
  filter : Expr
  order_by : List (Expr × Bool)
  limit : LimitClause
deriving DecidableEq

/-- True when the expression transitively contains an `Aggregate` node. -/
def hasAggregate : Expr → Bool
  | .ColName _ => false
  | .Const _ => false
  | .Func1 _ e => hasAggregate e
  | .Func2 _ e1 e2 => hasAggregate e1 || hasAggregate e2
  | .Aggregate _ _ => true

/-- `Query::extract_aggregators` (query.rs lines 430-450).  The mutable
`column_names` vector is threaded explicitly: the result is
`((shell, extracted aggregates), column_names afterwards)`. -/
def Query.extractAggregators : Expr → List String → (Expr × List (Aggregator × Expr)) × List String
  | .Aggregate aggregator e, columnNames =>
      let columnName := "_ca" ++ toString columnNames.length
      ((.ColName columnName, [(aggregator, e)]), columnNames ++ [columnName])
  | .Func1 t e, columnNames =>
      let r := Query.extractAggregators e columnNames
      ((.Func1 t r.1.1, r.1.2), r.2)
  | .Func2 t e1 e2, columnNames =>
      let r1 := Query.extractAggregators e1 columnNames
      let r2 := Query.extractAggregators e2 r1.2
      ((.Func2 t r1.1.1 r2.1.1, r1.1.2 ++ r2.1.2), r2.2)
  | .Const v, columnNames => ((.Const v, []), columnNames)
  | .ColName n, columnNames => ((.ColName n, []), columnNames)

/-- The test applied to entries of `final_projection` by `normalize`
(query.rs lines 380-384): true for everything except a bare `ColName`. -/
def notBareColName : Expr → Bool
  | .ColName _ => false
  | _ => true

/-- State produced by the select loop of `normalize` (query.rs lines 361-377):
the five vectors it pushes into. -/
structure SelectLoopOut where
  select : List Expr
  final_projection : List Expr
  aggregate : List (Aggregator × Expr)
  aggregate_colnames : List String
  select_colnames : List String
deriving DecidableEq

/-- The select loop of `Query::normalize` (query.rs lines 366-377). -/
def selectLoopGo : List Expr → List String → List String → SelectLoopOut
  | [], acs, scs => ⟨[], [], [], acs, scs⟩
  | e :: rest, acs, scs =>
      let r := Query.extractAggregators e acs
      if r.1.2.isEmpty then
        let columnName := "_cs" ++ toString scs.length
        let o := selectLoopGo rest r.2 (scs ++ [columnName])
        ⟨r.1.1 :: o.select, Expr.ColName columnName :: o.final_projection,
          o.aggregate, o.aggregate_colnames, o.select_colnames⟩
      else
        let o := selectLoopGo rest r.2 scs
        ⟨o.select, r.1.1 :: o.final_projection, r.1.2 ++ o.aggregate,
          o.aggregate_colnames, o.select_colnames⟩

/-- State produced by the order-by loop of `normalize`
(query.rs lines 387-399). -/
structure OrderByLoopOut where
  select : List Expr
  final_order_by : List (Expr × Bool)
  aggregate : List (Aggregator × Expr)
  aggregate_colnames : List String
  select_colnames : List String
deriving DecidableEq

/-- The order-by loop of `Query::normalize` (query.rs lines 388-399),
run only when a final pass is required. -/
def orderByLoopGo : List (Expr × Bool) → List String → List String → OrderByLoopOut
  | [], acs, scs => ⟨[], [], [], acs, scs⟩
  | ed :: rest, acs, scs =>
      let r := Query.extractAggregators ed.1 acs
      if r.1.2.isEmpty then
        let columnName := "_cs" ++ toString scs.length
        let o := orderByLoopGo rest r.2 (scs ++ [columnName])
        ⟨r.1.1 :: o.select, (Expr.ColName columnName, ed.2) :: o.final_order_by,
          o.aggregate, o.aggregate_colnames, o.select_colnames⟩
      else
        let o := orderByLoopGo rest r.2 scs
        ⟨o.select, (r.1.1, ed.2) :: o.final_order_by, r.1.2 ++ o.aggregate,
          o.aggregate_colnames, o.select_colnames⟩

/-- `Query::normalize` (query.rs lines 360-428). -/
def Query.normalize (q : Query) : NormalFormQuery × Option NormalFormQuery :=
  let o := selectLoopGo q.select [] []
  let requireFinalPass :=
    (!o.aggregate.isEmpty && !q.order_by.isEmpty)
      || o.final_projection.any notBareColName
  if requireFinalPass then
    let o2 := orderByLoopGo q.order_by o.aggregate_colnames o.select_colnames
    ({ projection := o.select ++ o2.select,
       filter := q.filter,
       aggregate := o.aggregate ++ o2.aggregate,
       order_by := [],
       limit := q.limit },
     some { projection := o.final_projection,
            filter := .Const (.Int 1),
            aggregate := [],
            order_by := o2.final_order_by,
            limit := q.limit })
  else
    ({ projection := o.select,
       filter := q.filter,
       aggregate := o.aggregate,
       order_by := q.order_by,
       limit := q.limit },
     none)

/-- Spec-side description for C2: the `(aggregator, inner)` pairs of the
outermost `Aggregate` subterms of an expression, read in pre-order. -/
def aggPairs : Expr → List (Aggregator × Expr)
  | .Aggregate aggregator e => [(aggregator, e)]
  | .Func1 _ e => aggPairs e
  | .Func2 _ e1 e2 => aggPairs e1 ++ aggPairs e2
  | .Const _ => []
  | .ColName _ => []

/-- Spec-side description for C2: the shell of an expression — its exact
shape with each outermost `Aggregate` subterm replaced by a fresh
`ColName` named `_ca{k}`, `k` counting extractions in pre-order starting
from the given offset; `Const` and `ColName` leaves unchanged. -/
def specShell : Expr → Nat → Expr
  | .Aggregate _ _, k => .ColName ("_ca" ++ toString k)
  | .Func1 t e, k => .Func1 t (specShell e k)
  | .Func2 t e1 e2, k => .Func2 t (specShell e1 k) (specShell e2 (k + (aggPairs e1).length))
  | .Const v, _ => .Const v
  | .ColName n, _ => .ColName n

/-- Claim-side reading for C3: the shells of the top-level select
expressions — each select expression after aggregate extraction, with the
synthetic-name counter threaded across the list as `normalize` does. -/
def selectShellsGo : List Expr → List String → List Expr
  | [], _ => []
  | e :: rest, acs =>
      let r := Query.extractAggregators e acs
      r.1.1 :: selectShellsGo rest r.2

/-- Claim-side reading for C3 at the top level (empty initial name state). -/
def selectShells (q : Query) : List Expr :=
  selectShellsGo q.select []

/-- A stage observes invariant (a): no expression in `projection`, `filter`
or `order_by` contains an `Aggregate` node. -/
def stageAggFree (s : NormalFormQuery) : Prop :=
  (∀ e ∈ s.projection, hasAggregate e = false)
    ∧ hasAggregate s.filter = false
    ∧ (∀ ed ∈ s.order_by, hasAggregate ed.1 = false)

/-- Counterexample query for C1: the filter contains an `Aggregate` node,
which `normalize` copies verbatim into stage 1. -/
def qC1ce : Query :=
  { select := [Expr.ColName "a"],
    table := "t",
    filter := Expr.Aggregate Aggregator.Count (Expr.Const (RawVal.Int 1)),
    order_by := [],
    limit := { limit := 100, offset := 0 } }

/-- Witness query for C1: aggregates mixed with scalar projections, an
aggregate-free filter and order-by. -/
def qC1w : Query :=
  { select := [Expr.Aggregate Aggregator.Sum (Expr.ColName "a"),
               Expr.Func2 0 (Expr.ColName "b") (Expr.Const (RawVal.Int 1))],
    table := "t",
    filter := Expr.Func2 0 (Expr.ColName "b") (Expr.Const (RawVal.Int 10)),
    order_by := [(Expr.ColName "b", false)],
    limit := { limit := 10, offset := 0 } }

/-- Counterexample query for C3: a single aggregate-free select expression
that is not a bare `ColName`; its shell is not a `ColName`, yet `normalize`
produces a single stage. -/
def qC3ce : Query :=
  { select := [Expr.Func2 0 (Expr.ColName "a") (Expr.ColName "b")],
    table := "t",
    filter := Expr.Const (RawVal.Int 1),
    order_by := [],
    limit := { limit := 100, offset := 0 } }

/-- Witness query for C3: an aggregate combined with an order-by clause,
forcing the two-stage normal form. -/
def qC3w : Query :=
  { select := [Expr.ColName "a", Expr.Aggregate Aggregator.Count (Expr.ColName "b")],
    table := "t",
    filter := Expr.Const (RawVal.Int 1),
    order_by := [(Expr.ColName "a", true)],
    limit := { limit := 10, offset := 0 } }

/-! ### Symbolic embedding of `NormalFormQuery::run` and `run_aggregate`

The planner (`QueryPlanner`), the expression compiler and the grouping
helpers live outside this module; their outputs are represented by symbolic
buffer terms (`Buf`) and by parameters, while the decision logic of
`run`/`run_aggregate` (query.rs lines 36-131 and 133-324) is translated
faithfully. -/

/-- Buffer encoding tags (`EncodingType`), restricted to the variants the
planning code in this module inspects plus representative others. -/
inductive EncodingType where
  | U8
  | NullableU8
  | I64
  | Str
  | Null
  | USize
deriving DecidableEq

/-- Modelled from the spec: the planner's `Type` (not under src/) carries an
encoding tag, order-preservation and positivity flags, and knows whether it
is encoded (has a codec). -/
structure QType where
  encoding : EncodingType
  is_positive_integer : Bool
  is_order_preserving : Bool
  is_encoded : Bool
deriving DecidableEq

/-- Symbolic planner buffers: opaque outputs of the external compiler and
helpers (`compiledFilter`, `ranking i`, `prepAgg i`, ...) plus one
constructor per planner operation `run`/`run_aggregate` emits. -/
inductive Buf where
  | compiledFilter
  | rawGroupingKey
  | prepAgg (i : Nat)
  | ranking (i : Nat)
  | projPlan (i : Nat)
  | obPlan (i : Nat)
  | decodePlanBuf (i : Nat)
  | indicesOf (b : Buf)
  | nullVec (n : Nat)
  | sortBy (key idx : Buf) (desc stable : Bool)
  | topN (key : Buf) (limit : Nat) (desc : Bool)
  | filterMask (idx mask : Buf)
  | nullableFilterMask (idx mask : Buf)
  | selectOp (vals idx : Buf)
  | decode (b : Buf)
  | scalarI64 (v : Int) (positive : Bool)
  | hashmapGroupBy (raw : Buf) (card : Nat)
  | hashmapKey (raw : Buf) (card : Nat)
  | hashmapCardinality (raw : Buf) (card : Nat)
  | existsOp (key card : Buf)
  | nonzeroIndices (sel : Buf) (enc : EncodingType)
  | compact (vals sel : Buf)
  | nonzeroCompact (vals : Buf)
deriving DecidableEq

/-- The `Filter` tagged union communicating the ambient row-selection
context (query.rs uses `Filter::{None, U8, NullableU8, Indices}`). -/
inductive Filter where
  | none
  | u8 (mask : Buf)
  | nullableU8 (mask : Buf)
  | indices (l : Buf)
deriving DecidableEq

/-- The `QueryError` kinds (payload strings dropped). -/
inductive QueryError where
  | NoSuchColumn
  | TypeError
  | NotImplemented
  | FatalError
deriving DecidableEq

/-- The two panics the scan path can reach: the `unreachable!()` arm of the
filter-fusion match and the `unwrap()` on `columns.iter().next()`. -/
inductive ScanPanic where
  | unreachableFilterIndices
  | emptyColumnsUnwrap
deriving DecidableEq

/-- Map with an explicit index counter, used to specify loops that use
`iter().enumerate()`. -/
def mapWithIdx {α β : Type} (f : Nat → α → β) : Nat → List α → List β
  | _, [] => []
  | i, x :: xs => f i x :: mapWithIdx f (i + 1) xs

/-- The initial filter compilation match (query.rs lines 46-50 and 147-151):
a compiled filter of `U8`/`NullableU8` encoding becomes a mask filter,
anything else `Filter::None`. -/
def initialFilter (enc : EncodingType) : Filter :=
  match enc with
  | .U8 => .u8 .compiledFilter
  | .NullableU8 => .nullableU8 .compiledFilter
  | _ => .none

/-- The body of the sorting loop of `run` (query.rs lines 54-73), iterating
over the already-reversed `(original index, desc)` list; `n` is
`self.order_by.len()`. -/
def sortLoopGo (n limit pl : Nat) : List (Nat × Bool) → Option Buf → Option Buf
  | [], si => si
  | jd :: rest, si =>
      sortLoopGo n limit pl rest
        (some (if limit < pl / 2 ∧ n = 1 then
                 Buf.topN (Buf.ranking jd.1) limit jd.2
               else
                 match si with
                 | Option.none =>
                     Buf.sortBy (Buf.ranking jd.1) (Buf.indicesOf (Buf.ranking jd.1)) jd.2 false
                 | some idx => Buf.sortBy (Buf.ranking jd.1) idx jd.2 true))

/-- The sorting phase of `run` (query.rs lines 52-73): iterate over
`order_by` in reverse, producing the final `sort_indices`. -/
def sortLoop (ob : List Bool) (limit pl : Nat) : Option Buf :=
  sortLoopGo ob.length limit pl (mapWithIdx (fun i d => (i, d)) 0 ob).reverse Option.none

/-- Spec-side description for C6 of the non-top-n sorting structure: the
first-processed key gets an unstable `sort_by` over fresh indices, each
subsequently processed key a stable `sort_by` over the prior indices, the
keys being processed in reverse order. -/
def fullSortSpec (ob : List Bool) : Option Buf :=
  match (mapWithIdx (fun i d => (i, d)) 0 ob).reverse with
  | [] => Option.none
  | jd :: rest =>
      some (rest.foldl (fun acc jd2 => Buf.sortBy (Buf.ranking jd2.1) acc jd2.2 true)
              (Buf.sortBy (Buf.ranking jd.1) (Buf.indicesOf (Buf.ranking jd.1)) jd.2 false))

/-- True when the buffer term contains a `top_n` operator. -/
def containsTopN : Buf → Bool
  | .topN _ _ _ => true
  | .indicesOf b => containsTopN b
  | .sortBy k i _ _ => containsTopN k || containsTopN i
  | .selectOp a b => containsTopN a || containsTopN b
  | .filterMask a b => containsTopN a || containsTopN b
  | .nullableFilterMask a b => containsTopN a || containsTopN b
  | .decode b => containsTopN b
  | .compact a b => containsTopN a || containsTopN b
  | .nonzeroCompact a => containsTopN a
  | .nonzeroIndices a _ => containsTopN a
  | .existsOp a b => containsTopN a || containsTopN b
  | .hashmapGroupBy a _ => containsTopN a
  | .hashmapKey a _ => containsTopN a
  | .hashmapCardinality a _ => containsTopN a
  | _ => false

/-- The filter-fusion match of `run` (query.rs lines 74-91), entered when
sort indices exist; the `Filter::Indices` arm is `unreachable!()`, modelled
as `none`. -/
def fuseFilter (pl : Nat) (f : Filter) (si : Buf) : Option Filter :=
  match f with
  | .u8 whereTrue =>
      some (.indices (Buf.selectOp (Buf.filterMask (Buf.indicesOf (Buf.nullVec pl)) whereTrue) si))
  | .nullableU8 whereTrue =>
      some (.indices (Buf.selectOp
        (Buf.nullableFilterMask (Buf.indicesOf (Buf.nullVec pl)) whereTrue) si))
  | .none => some (.indices si)
  | .indices _ => Option.none

/-- Inputs of the scan path that are produced by external collaborators:
the compiled filter's encoding, the order-by descending flags, the limit
clause, the partition length, the projection count and codec presence, and
the partition's column map as `(name, row count)` pairs. -/
structure ScanParams where
  filterEnc : EncodingType
  order_by : List Bool
  limit : LimitClause
  partition_length : Nat
  nProjection : Nat
  projCodec : Nat → Bool
  obCodec : Nat → Bool
  columns : List (String × Nat)

/-- Observable outcome of the scan path's planning decisions. -/
structure ScanOut where
  filter : Filter
  sort_indices : Option Buf
  select : List Buf
  order_by_out : List (Buf × Bool)
  row_count : Nat
deriving DecidableEq

/-- `NormalFormQuery::run` (query.rs lines 36-131), with external helper
outputs symbolic: filter compilation and tagging, the sorting loop, filter
fusion, projection and order-by materialization (decoding when a codec is
present), and the row-count unwrap on `columns.iter().next()`. -/
def runScanSym (p : ScanParams) : Except ScanPanic ScanOut :=
  let limit := p.limit.limit + p.limit.offset
  let filter0 := initialFilter p.filterEnc
  let si := sortLoop p.order_by limit p.partition_length
  let fused : Option Filter :=
    match si with
    | Option.none => some filter0
    | some s => fuseFilter p.partition_length filter0 s
  match fused with
  | Option.none => .error .unreachableFilterIndices
  | some f =>
      match p.columns.head? with
      | Option.none => .error .emptyColumnsUnwrap
      | some c =>
          .ok { filter := f,
                sort_indices := si,
                select := (List.range p.nProjection).map (fun i =>
                  if p.projCodec i then Buf.decode (Buf.projPlan i) else Buf.projPlan i),
                order_by_out := mapWithIdx (fun j d =>
                  (if p.obCodec j then Buf.decode (Buf.obPlan j) else Buf.obPlan j, d)) 0 p.order_by,
                row_count := c.2 }

/-- True exactly for the `unreachable!()` outcome of the scan path. -/
def hitsUnreachable (r : Except ScanPanic ScanOut) : Bool :=
  match r with
  | .error .unreachableFilterIndices => true
  | _ => false

/-- True exactly for `Filter::Indices`. -/
def filterIsIndices : Filter → Bool
  | .indices _ => true
  | _ => false

/-- Modelled from the spec: `prepare_hashmap_grouping` (not under src/)
emits a hashmap-build operator yielding an encoded grouping column, a
remapped grouping key, a new grouping-key type, and a cardinality buffer.
The new grouping-key type is an external input (`newType`). -/
def prepareHashmapGrouping (rawKey : Buf) (maxCard : Nat) (newType : QType) :
    Option Buf × Buf × QType × Buf :=
  (some (.hashmapGroupBy rawKey maxCard), .hashmapKey rawKey maxCard, newType,
    .hashmapCardinality rawKey maxCard)

/-- The aggregator loop of `run_aggregate` (query.rs lines 181-199):
compile and prepare each aggregation (symbolically `prepAgg i` with type
`ts i`), remembering the last `Count` aggregate as selector together with
its index. -/
def aggLoopGo (ts : Nat → QType) : Nat → List (Aggregator × Nat) →
    List (Aggregator × Buf × QType) × Option (Buf × Nat)
  | _, [] => ([], Option.none)
  | i, ae :: rest =>
      let r := aggLoopGo ts (i + 1) rest
      let sel : Option (Buf × Nat) :=
        match r.2 with
        | some sk => some sk
        | Option.none =>
            if ae.1 = Aggregator.Count then some (Buf.prepAgg i, i) else Option.none
      ((ae.1, Buf.prepAgg i, ts i) :: r.1, sel)

/-- `decode_compact` (query.rs lines 217-230): compact `Sum` via `compact`
against the selector, `Count` via `nonzero_compact`, then decode when the
result type is encoded. -/
def decodeCompact (sel : Buf) (a : Aggregator) (b : Buf) (t : QType) : Buf :=
  let compacted :=
    match a with
    | .Sum => Buf.compact b sel
    | .Count => Buf.nonzeroCompact b
  if t.is_encoded then Buf.decode compacted else compacted

/-- The first compaction loop of `run_aggregate` (query.rs lines 232-237):
push `decode_compact` of every aggregation result whose index is not the
selector index, keeping order. -/
def compactPush (sel : Buf) (selIdx : Option Nat) :
    Nat → List (Aggregator × Buf × QType) → List (Buf × Aggregator)
  | _, [] => []
  | i, r :: rest =>
      (if selIdx = some i then [] else [(decodeCompact sel r.1 r.2.1 r.2.2, r.1)])
        ++ compactPush sel selIdx (i + 1) rest

/-- `Vec::insert(i, x)`: insert `x` at position `i` (the out-of-range
clause is never reached by `run_aggregate`). -/
def insertAt {α : Type} : Nat → α → List α → List α
  | 0, x, l => x :: l
  | _ + 1, x, [] => [x]
  | n + 1, x, y :: l => y :: insertAt n x l

/-- Compact-and-decode step of `run_aggregate` (query.rs lines 214-245):
non-selector aggregates in order, then the selector aggregate re-inserted
at its original index. -/
def aggregationColsStep (sel : Buf) (selIdx : Option Nat)
    (results : List (Aggregator × Buf × QType)) : List (Buf × Aggregator) :=
  let base := compactPush sel selIdx 0 results
  match selIdx with
  | Option.none => base
  | some i =>
      match results[i]? with
      | some r => insertAt i (decodeCompact sel r.1 r.2.1 r.2.2, r.1) base
      | Option.none => base

/-- Spec-side description for C8 of the per-aggregator compaction rule:
`Sum` is compacted against the selector via `compact`, `Count` via
`nonzero_compact`, and the result decoded when its type is encoded. -/
def compactRuleSpec (sel : Buf) (a : Aggregator) (b : Buf) (t : QType) : Buf :=
  match a with
  | .Sum => if t.is_encoded then Buf.decode (Buf.compact b sel) else Buf.compact b sel
  | .Count => if t.is_encoded then Buf.decode (Buf.nonzeroCompact b) else Buf.nonzeroCompact b

/-- Inputs of the aggregate path produced by external collaborators: the
aggregate list (aggregator, symbolic expression), the types returned by
`prepare_aggregation`, the compiled filter's encoding, the raw grouping key
type and maximum from `compile_grouping_key`, the per-column decode plans,
the grouping-key type `prepare_hashmap_grouping` would return, the column
map, and the outcome of `BatchResult::validate` (per the spec a validation
failure surfaces as `FatalError`). -/
structure AggParams where
  aggs : List (Aggregator × Nat)
  aggTypes : Nat → QType
  filterEnc : EncodingType
  rawType : QType
  maxKey : Int
  decodePlans : List (Buf × QType)
  hashType : QType
  columns : List (String × Nat)
  validation : Option QueryError

/-- Intermediate state of `run_aggregate` after grouping-strategy
selection, aggregation preparation, selector determination, group-by
column construction and compaction (query.rs lines 146-252). -/
structure AggMid where
  filter : Filter
  encodedGroupByInitial : Option Buf
  groupingKey : Buf
  groupingKeyType : QType
  cardinality : Buf
  aggResults : List (Aggregator × Buf × QType)
  selector : Buf
  selectorIndex : Option Nat
  encodedGroupByColumn : Buf
  aggColsCompacted : List (Buf × Aggregator)
  groupingColumns : List Buf
deriving DecidableEq

/-- Final observable outcome of the aggregate path's planning decisions. -/
structure AggOut where
  aggCols : List (Buf × Aggregator)
  groupingCols : List Buf
  rowCount : Nat
deriving DecidableEq

/-- Steps 1-8 of `run_aggregate` (query.rs lines 146-252): filter tagging,
grouping-strategy selection (`max_grouping_key < 1 << 16` and positive
integer key means dense grouping, else `prepare_hashmap_grouping`), the
aggregator loop, selector determination (`exists` when no `Count`),
encoded group-by column construction (`nonzero_indices` in the dense
case), compaction, and grouping-column reconstruction from decode plans. -/
def aggPhase1 (p : AggParams) : AggMid :=
  let filter :=
    match p.filterEnc with
    | .U8 => Filter.u8 .compiledFilter
    | .NullableU8 => Filter.nullableU8 .compiledFilter
    | _ => Filter.none
  let g : Option Buf × Buf × QType × Buf :=
    if p.maxKey < 65536 ∧ p.rawType.is_positive_integer = true then
      (Option.none, .rawGroupingKey, p.rawType, .scalarI64 p.maxKey true)
    else
      prepareHashmapGrouping .rawGroupingKey p.maxKey.toNat p.hashType
  let ar := aggLoopGo p.aggTypes 0 p.aggs
  let selector : Buf :=
    match ar.2 with
    | Option.none => .existsOp g.2.1 g.2.2.2
    | some sk => sk.1
  let selIdx : Option Nat := ar.2.map (fun sk => sk.2)
  let egbCol : Buf :=
    match g.1 with
    | Option.none => .nonzeroIndices selector g.2.2.1.encoding
    | some x => x
  { filter := filter,
    encodedGroupByInitial := g.1,
    groupingKey := g.2.1,
    groupingKeyType := g.2.2.1,
    cardinality := g.2.2.2,
    aggResults := ar.1,
    selector := selector,
    selectorIndex := selIdx,
    encodedGroupByColumn := egbCol,
    aggColsCompacted := aggregationColsStep selector selIdx ar.1,
    groupingColumns := p.decodePlans.map (fun dp => dp.1) }

/-- The order-preservation fixup of `run_aggregate` (query.rs lines
254-290): when the grouping-key type is not order-preserving, sort by the
encoded group-by column if the raw grouping-key type is order-preserving,
else require exactly one grouping column and sort by its decoded values
(bailing with `NotImplemented` otherwise), then apply the permutation via
`select` to every aggregation and grouping column. -/
def fixup (gkOP rawOP : Bool) (egb : Buf) (aggCols : List (Buf × Aggregator))
    (grpCols : List Buf) : Except QueryError (List (Buf × Aggregator) × List Buf) :=
  if gkOP then .ok (aggCols, grpCols)
  else
    match (if rawOP then
             Except.ok (Buf.sortBy egb (Buf.indicesOf egb) false false)
           else
             match grpCols with
             | [g] => Except.ok (Buf.sortBy g (Buf.indicesOf g) false false)
             | _ => Except.error QueryError.NotImplemented : Except QueryError Buf) with
    | .error e => .error e
    | .ok si =>
        .ok (aggCols.map (fun ba => (Buf.selectOp ba.1 si, ba.2)),
             grpCols.map (fun g2 => Buf.selectOp g2 si))

/-- `NormalFormQuery::run_aggregate` (query.rs lines 133-324): phase 1,
the order-preservation fixup, the row count (`unwrap_or(1)` on the column
map), and result validation. -/
def runAggregateSym (p : AggParams) : Except QueryError AggOut :=
  let mid := aggPhase1 p
  match fixup mid.groupingKeyType.is_order_preserving p.rawType.is_order_preserving
      mid.encodedGroupByColumn mid.aggColsCompacted mid.groupingColumns with
  | .error e => .error e
  | .ok r =>
      match p.validation with
      | some e => .error e
      | Option.none =>
          .ok { aggCols := r.1,
                groupingCols := r.2,
                rowCount := (p.columns.head?.map (fun c => c.2)).getD 1 }

/-- A plain integer type used by the concrete witness parameters. -/
def tI64 : QType :=
  { encoding := .I64, is_positive_integer := true, is_order_preserving := true,
    is_encoded := false }

/-- Concrete scan parameters (witnesses): one ascending order-by key with a
small limit over a large partition, and one non-empty column map. -/
def pScanW : ScanParams :=
  { filterEnc := .U8, order_by := [true], limit := { limit := 3, offset := 0 },
    partition_length := 100, nProjection := 1,
    projCodec := fun _ => false, obCodec := fun _ => false,
    columns := [("a", 42)] }

/-- Concrete scan parameters (witnesses): two order-by keys, a limit too
large for top-n, and an empty column map. -/
def pScanW2 : ScanParams :=
  { filterEnc := .Null, order_by := [false, true], limit := { limit := 3, offset := 0 },
    partition_length := 4, nProjection := 0,
    projCodec := fun _ => false, obCodec := fun _ => true,
    columns := [] }

/-- Concrete aggregate parameters (witness for C5): a grouping key too large
for dense grouping. -/
def pC5w : AggParams :=
  { aggs := [(Aggregator.Count, 0)],
    aggTypes := fun _ => tI64,
    filterEnc := .U8,
    rawType := { encoding := .I64, is_positive_integer := false,
                 is_order_preserving := true, is_encoded := false },
    maxKey := 100000,
    decodePlans := [(Buf.decodePlanBuf 0, tI64)],
    hashType := { encoding := .USize, is_positive_integer := true,
                  is_order_preserving := false, is_encoded := false },
    columns := [("a", 42)],
    validation := Option.none }

/-- Concrete aggregate parameters (witness for C7): hashmap grouping with a
non-order-preserving grouping-key type but an order-preserving raw key. -/
def pC7w : AggParams :=
  { aggs := [(Aggregator.Sum, 0)],
    aggTypes := fun _ => tI64,
    filterEnc := .Null,
    rawType := { encoding := .I64, is_positive_integer := false,
                 is_order_preserving := true, is_encoded := false },
    maxKey := 70000,
    decodePlans := [(Buf.decodePlanBuf 0, tI64)],
    hashType := { encoding := .USize, is_positive_integer := true,
                  is_order_preserving := false, is_encoded := false },
    columns := [("a", 7)],
    validation := Option.none }

/-- Concrete aggregate parameters (witness for C10): an empty column map on
the dense-grouping path. -/
def pAggEmpty : AggParams :=
  { aggs := [],
    aggTypes := fun _ => tI64,
    filterEnc := .U8,
    rawType := tI64,
    maxKey := 10,
    decodePlans := [],
    hashType := tI64,
    columns := [],
    validation := Option.none }

/-! ### Helper lemmas about `extract_aggregators` and the `normalize` loops -/

theorem list_isEmpty_true_iff {α : Type} (l : List α) : l.isEmpty = true ↔ l = [] := by
  cases l <;> simp

theorem list_isEmpty_false_iff {α : Type} (l : List α) : l.isEmpty = false ↔ l ≠ [] := by
  cases l <;> simp

theorem extract_len (e : Expr) : ∀ cs : List String,
    ((Query.extractAggregators e cs).2).length = cs.length + (aggPairs e).length := by
  induction e with
  | ColName n => intro cs; simp [Query.extractAggregators, aggPairs]
  | Const v => intro cs; simp [Query.extractAggregators, aggPairs]
  | Func1 t e ih => intro cs; simpa [Query.extractAggregators, aggPairs] using ih cs
  | Func2 t e1 e2 ih1 ih2 =>
      intro cs
      simp [Query.extractAggregators, aggPairs, ih1, ih2]
      omega
  | Aggregate a e _ => intro cs; simp [Query.extractAggregators, aggPairs]

theorem extract_shell_pairs (e : Expr) : ∀ cs : List String,
    (Query.extractAggregators e cs).1 = (specShell e cs.length, aggPairs e) := by
  induction e with
  | ColName n => intro cs; simp [Query.extractAggregators, specShell, aggPairs]
  | Const v => intro cs; simp [Query.extractAggregators, specShell, aggPairs]
  | Func1 t e ih => intro cs; simp [Query.extractAggregators, specShell, aggPairs, ih]
  | Func2 t e1 e2 ih1 ih2 =>
      intro cs
      simp [Query.extractAggregators, specShell, aggPairs, ih1, ih2, extract_len]
  | Aggregate a e _ => intro cs; simp [Query.extractAggregators, specShell, aggPairs]

theorem specShell_aggFree (e : Expr) : ∀ k, hasAggregate (specShell e k) = false := by
  induction e with
  | ColName n => intro k; simp [specShell, hasAggregate]
  | Const v => intro k; simp [specShell, hasAggregate]
  | Func1 t e ih => intro k; simp [specShell, hasAggregate, ih]
  | Func2 t e1 e2 ih1 ih2 => intro k; simp [specShell, hasAggregate, ih1, ih2]
  | Aggregate a e _ => intro k; simp [specShell, hasAggregate]

theorem extract_shell_aggFree (e : Expr) (cs : List String) :
    hasAggregate (Query.extractAggregators e cs).1.1 = false := by
  simp [extract_shell_pairs, specShell_aggFree]

theorem selectLoopGo_select_aggFree (l : List Expr) :
    ∀ acs scs, ∀ e ∈ (selectLoopGo l acs scs).select, hasAggregate e = false := by
  induction l with
  | nil => intro acs scs e h; simp [selectLoopGo] at h
  | cons x rest ih =>
      intro acs scs e h
      by_cases hc : (Query.extractAggregators x acs).1.2.isEmpty = true
      · simp only [selectLoopGo, hc, if_true] at h
        rcases List.mem_cons.mp h with h1 | h1
        · subst h1; exact extract_shell_aggFree x acs
        · exact ih _ _ e h1
      · simp only [selectLoopGo, hc, if_false] at h
        exact ih _ _ e h

theorem selectLoopGo_fp_aggFree (l : List Expr) :
    ∀ acs scs, ∀ e ∈ (selectLoopGo l acs scs).final_projection, hasAggregate e = false := by
  induction l with
  | nil => intro acs scs e h; simp [selectLoopGo] at h
  | cons x rest ih =>
      intro acs scs e h
      by_cases hc : (Query.extractAggregators x acs).1.2.isEmpty = true
      · simp only [selectLoopGo, hc, if_true] at h
        rcases List.mem_cons.mp h with h1 | h1
        · subst h1; simp [hasAggregate]
        · exact ih _ _ e h1
      · simp only [selectLoopGo, hc, if_false] at h
        rcases List.mem_cons.mp h with h1 | h1
        · subst h1; exact extract_shell_aggFree x acs
        · exact ih _ _ e h1

theorem orderByLoopGo_select_aggFree (l : List (Expr × Bool)) :
    ∀ acs scs, ∀ e ∈ (orderByLoopGo l acs scs).select, hasAggregate e = false := by
  induction l with
  | nil => intro acs scs e h; simp [orderByLoopGo] at h
  | cons x rest ih =>
      intro acs scs e h
      by_cases hc : (Query.extractAggregators x.1 acs).1.2.isEmpty = true
      · simp only [orderByLoopGo, hc, if_true] at h
        rcases List.mem_cons.mp h with h1 | h1
        · subst h1; exact extract_shell_aggFree x.1 acs
        · exact ih _ _ e h1
      · simp only [orderByLoopGo, hc, if_false] at h
        exact ih _ _ e h

theorem orderByLoopGo_fob_aggFree (l : List (Expr × Bool)) :
    ∀ acs scs, ∀ ed ∈ (orderByLoopGo l acs scs).final_order_by, hasAggregate ed.1 = false := by
  induction l with
  | nil => intro acs scs ed h; simp [orderByLoopGo] at h
  | cons x rest ih =>
      intro acs scs ed h
      by_cases hc : (Query.extractAggregators x.1 acs).1.2.isEmpty = true
      · simp only [orderByLoopGo, hc, if_true] at h
        rcases List.mem_cons.mp h with h1 | h1
        · subst h1; simp [hasAggregate]
        · exact ih _ _ ed h1
      · simp only [orderByLoopGo, hc, if_false] at h
        rcases List.mem_cons.mp h with h1 | h1
        · subst h1; exact extract_shell_aggFree x.1 acs
        · exact ih _ _ ed h1

theorem normalize_snd_isSome (q : Query) :
    (q.normalize).2.isSome
      = ((!(selectLoopGo q.select [] []).aggregate.isEmpty && !q.order_by.isEmpty)
          || (selectLoopGo q.select [] []).final_projection.any notBareColName) := by
  simp only [Query.normalize]
  split
  next h => simp [h]
  next h =>
    simp only [Bool.not_eq_true] at h
    simp [h]

/-! ### Claims C1-C4 -/

/-- C1 (counterexample): the claim says no `Aggregate` node occurs inside
`s1.filter` for every `Query`; but `normalize` copies the filter verbatim,
so a query whose filter is `Aggregate(Count, Const(1))` yields a stage-1
filter containing an `Aggregate` node. -/
theorem c1_counterexample : hasAggregate (qC1ce.normalize).1.filter = true := by decide

/-- C1 (amended): for every `Query q` whose filter and order-by expressions
contain no `Aggregate` node, if `(s1, s2) = q.normalize()` then no
`Aggregate` node occurs anywhere inside `s1.projection`, `s1.filter`,
`s1.order_by`, nor (when `s2` is present) inside `s2.projection`,
`s2.filter`, or `s2.order_by`. -/
theorem c1_theorem (q : Query) (hf : hasAggregate q.filter = false)
    (ho : ∀ ed ∈ q.order_by, hasAggregate ed.1 = false) :
    stageAggFree (q.normalize).1 ∧ (q.normalize).2.elim True stageAggFree := by
  simp only [Query.normalize]
  by_cases hc : ((!(selectLoopGo q.select [] []).aggregate.isEmpty && !q.order_by.isEmpty)
      || (selectLoopGo q.select [] []).final_projection.any notBareColName) = true
  · simp only [hc, if_true]
    constructor
    · refine ⟨?_, hf, ?_⟩
      · intro e he
        rcases List.mem_append.mp he with h1 | h1
        · exact selectLoopGo_select_aggFree _ _ _ e h1
        · exact orderByLoopGo_select_aggFree _ _ _ e h1
      · intro ed hed; simp at hed
    · simp only [Option.elim]
      refine ⟨?_, by simp [hasAggregate], ?_⟩
      · intro e he
        exact selectLoopGo_fp_aggFree _ _ _ e he
      · intro ed hed
        exact orderByLoopGo_fob_aggFree _ _ _ ed hed
  · simp only [Bool.not_eq_true] at hc
    simp only [hc, if_false]
    refine ⟨⟨?_, hf, ho⟩, trivial⟩
    intro e he
    exact selectLoopGo_select_aggFree _ _ _ e he

/-- C1 (witness): the amended theorem applied to a concrete query mixing an
aggregate, a scalar projection, a filter and an order-by clause. -/
theorem c1_witness :
    stageAggFree (qC1w.normalize).1 ∧ (qC1w.normalize).2.elim True stageAggFree :=
  c1_theorem qC1w (by decide) (by decide)

/-- C2: `extract_aggregators` is a homomorphism over `Func1`/`Func2`: the
returned shell is exactly the input's shape with each outermost
`Aggregate(agg, inner)` subterm replaced by a fresh `ColName` named `_ca{k}`
(`k` counting extractions in pre-order from the current name-state length;
in particular from 0 for an empty initial state), `Const`/`ColName` leaves
unchanged; and the returned aggregate list equals the `(aggregator, inner)`
pairs of the outermost `Aggregate` subterms in pre-order. -/
theorem c2_theorem (e : Expr) (cs : List String) :
    (Query.extractAggregators e cs).1.1 = specShell e cs.length
      ∧ (Query.extractAggregators e cs).1.2 = aggPairs e := by
  refine ⟨?_, ?_⟩ <;> simp [extract_shell_pairs]

/-- C3 (counterexample): for `select = [a + b]` with no order-by the
top-level select shell (the select expression after aggregate extraction)
is not a bare `ColName`, yet `normalize` returns no second stage — the
claimed iff fails. -/
theorem c3_counterexample :
    ¬ (((qC3ce.normalize).2.isSome = true) ↔
       ((selectShells qC3ce).any notBareColName = true
         ∨ ((selectLoopGo qC3ce.select [] []).aggregate ≠ [] ∧ qC3ce.order_by ≠ []))) := by
  decide

/-- C3 (amended): `q.normalize()` returns a second stage iff some entry of
the final projection (the synthetic `ColName` for an aggregate-free select
expression, the extracted shell for an aggregate-containing one) is not a
bare `ColName`, or both the extracted aggregate list and `q.order_by` are
non-empty; otherwise it returns a single stage carrying `q`'s original
`order_by` and `limit`. -/
theorem c3_theorem (q : Query) :
    (((q.normalize).2.isSome = true) ↔
       ((selectLoopGo q.select [] []).final_projection.any notBareColName = true
         ∨ ((selectLoopGo q.select [] []).aggregate ≠ [] ∧ q.order_by ≠ [])))
      ∧ ((q.normalize).2 = none →
          (q.normalize).1.order_by = q.order_by ∧ (q.normalize).1.limit = q.limit) := by
  constructor
  · rw [normalize_snd_isSome]
    simp only [Bool.or_eq_true, Bool.and_eq_true, Bool.not_eq_true', list_isEmpty_false_iff]
    tauto
  · intro h
    simp only [Query.normalize] at h ⊢
    by_cases hc : ((!(selectLoopGo q.select [] []).aggregate.isEmpty && !q.order_by.isEmpty)
        || (selectLoopGo q.select [] []).final_projection.any notBareColName) = true
    · simp [hc] at h
    · simp only [Bool.not_eq_true] at hc
      simp [hc]

/-- C3 (witness): the amended theorem's single-stage part applied to the
concrete aggregate-free query. -/
theorem c3_witness :
    (qC3ce.normalize).1.order_by = qC3ce.order_by
      ∧ (qC3ce.normalize).1.limit = qC3ce.limit :=
  (c3_theorem qC3ce).2 (by decide)

/-- C4: for every `Query q` and every stage returned by `q.normalize()`
(stage 1, and stage 2 when present), it is not the case that both that
stage's aggregate list and its order_by list are non-empty. -/
theorem c4_theorem (q : Query) :
    ((q.normalize).1.aggregate = [] ∨ (q.normalize).1.order_by = [])
      ∧ (q.normalize).2.elim True (fun s => s.aggregate = [] ∨ s.order_by = []) := by
  simp only [Query.normalize]
  by_cases hc : ((!(selectLoopGo q.select [] []).aggregate.isEmpty && !q.order_by.isEmpty)
      || (selectLoopGo q.select [] []).final_projection.any notBareColName) = true
  · simp [hc]
  · simp only [Bool.not_eq_true] at hc
    simp only [hc, if_false]
    refine ⟨?_, trivial⟩
    rcases Bool.or_eq_false_iff.mp hc with ⟨h1, _⟩
    rcases Bool.and_eq_false_iff.mp h1 with h2 | h2
    · left
      have hb : (selectLoopGo q.select [] []).aggregate.isEmpty = true := by
        revert h2; cases (selectLoopGo q.select [] []).aggregate.isEmpty <;> simp
      exact (list_isEmpty_true_iff _).mp hb
    · right
      have hb : q.order_by.isEmpty = true := by
        revert h2; cases q.order_by.isEmpty <;> simp
      exact (list_isEmpty_true_iff _).mp hb

/-! ### Helper lemmas about the scan path -/

theorem sortLoopGo_noTop (n limit pl : Nat) (h : ¬(limit < pl / 2 ∧ n = 1)) :
    ∀ (l : List (Nat × Bool)) (acc : Buf),
      sortLoopGo n limit pl l (some acc)
        = some (l.foldl (fun a jd2 => Buf.sortBy (Buf.ranking jd2.1) a jd2.2 true) acc) := by
  intro l
  induction l with
  | nil => intro acc; simp [sortLoopGo]
  | cons jd rest ih =>
      intro acc
      rw [sortLoopGo, if_neg h]
      exact ih _

theorem sortLoop_noTop (ob : List Bool) (limit pl : Nat)
    (h : ¬(limit < pl / 2 ∧ ob.length = 1)) :
    sortLoop ob limit pl = fullSortSpec ob := by
  rw [sortLoop, fullSortSpec]
  cases hrev : (mapWithIdx (fun i d => (i, d)) 0 ob).reverse with
  | nil => simp [sortLoopGo]
  | cons jd rest =>
      rw [sortLoopGo, if_neg h]
      exact sortLoopGo_noTop ob.length limit pl h rest _

theorem sortLoop_single (d : Bool) (limit pl : Nat) (h : limit < pl / 2) :
    sortLoop [d] limit pl = some (Buf.topN (Buf.ranking 0) limit d) := by
  simp [sortLoop, mapWithIdx, sortLoopGo, h]

theorem containsTopN_fold (rest : List (Nat × Bool)) :
    ∀ acc : Buf, containsTopN acc = false →
      containsTopN
        (rest.foldl (fun a jd2 => Buf.sortBy (Buf.ranking jd2.1) a jd2.2 true) acc) = false := by
  induction rest with
  | nil => intro acc h; simpa using h
  | cons jd rest ih =>
      intro acc h
      simp only [List.foldl_cons]
      exact ih _ (by simp [containsTopN, h])

/-! ### Claims C5, C6, C9, C10 -/

/-- C5: in `run_aggregate`, dense grouping is chosen iff
`max_grouping_key < 2^16` and the raw grouping-key type is a positive
integer — in which case the raw grouping key is the grouping key, the
aggregation cardinality is the scalar `max_grouping_key`, and no encoded
group-by column is produced yet; in every other case
`prepare_hashmap_grouping` is invoked. -/
theorem c5_theorem (p : AggParams) :
    (((aggPhase1 p).encodedGroupByInitial = Option.none
        ∧ (aggPhase1 p).groupingKey = Buf.rawGroupingKey
        ∧ (aggPhase1 p).groupingKeyType = p.rawType
        ∧ (aggPhase1 p).cardinality = Buf.scalarI64 p.maxKey true)
      ↔ (p.maxKey < 65536 ∧ p.rawType.is_positive_integer = true))
    ∧ (¬(p.maxKey < 65536 ∧ p.rawType.is_positive_integer = true) →
        ((aggPhase1 p).encodedGroupByInitial, (aggPhase1 p).groupingKey,
          (aggPhase1 p).groupingKeyType, (aggPhase1 p).cardinality)
          = prepareHashmapGrouping Buf.rawGroupingKey p.maxKey.toNat p.hashType) := by
  by_cases hc : p.maxKey < 65536 ∧ p.rawType.is_positive_integer = true
  · refine ⟨⟨fun _ => hc, fun _ => ?_⟩, fun hn => absurd hc hn⟩
    simp [aggPhase1, if_pos hc]
  · refine ⟨⟨fun hfields => ?_, fun h => absurd h hc⟩, fun _ => ?_⟩
    · exfalso
      have h1 := hfields.1
      simp [aggPhase1, if_neg hc, prepareHashmapGrouping] at h1
    · simp [aggPhase1, if_neg hc, prepareHashmapGrouping]

/-- C5 (witness): the hashmap branch of the theorem at concrete parameters
with `max_grouping_key = 100000`. -/
theorem c5_witness :
    ((aggPhase1 pC5w).encodedGroupByInitial, (aggPhase1 pC5w).groupingKey,
      (aggPhase1 pC5w).groupingKeyType, (aggPhase1 pC5w).cardinality)
      = prepareHashmapGrouping Buf.rawGroupingKey pC5w.maxKey.toNat pC5w.hashType :=
  (c5_theorem pC5w).2 (by decide)

/-- C6: in `run`, a `top_n` operator is emitted iff `order_by` has exactly
one key and `limit < partition_length / 2` (the per-partition limit hint
being `limit + offset`); otherwise the first-processed key gets an unstable
`sort_by` over fresh indices and each subsequently processed key a stable
`sort_by` over the prior indices, keys processed in reverse order. -/
theorem c6_theorem (p : ScanParams) :
    ((∃ b, sortLoop p.order_by (p.limit.limit + p.limit.offset) p.partition_length = some b
        ∧ containsTopN b = true)
      ↔ (p.order_by.length = 1 ∧ p.limit.limit + p.limit.offset < p.partition_length / 2))
    ∧ (∀ d, p.order_by = [d] →
        p.limit.limit + p.limit.offset < p.partition_length / 2 →
        sortLoop p.order_by (p.limit.limit + p.limit.offset) p.partition_length
          = some (Buf.topN (Buf.ranking 0) (p.limit.limit + p.limit.offset) d))
    ∧ (¬(p.order_by.length = 1 ∧ p.limit.limit + p.limit.offset < p.partition_length / 2) →
        sortLoop p.order_by (p.limit.limit + p.limit.offset) p.partition_length
          = fullSortSpec p.order_by)
    ∧ (∀ out, runScanSym p = .ok out →
        out.sort_indices
          = sortLoop p.order_by (p.limit.limit + p.limit.offset) p.partition_length) := by
  refine ⟨?_, ?_, ?_, ?_⟩
  · constructor
    · rintro ⟨b, hb, htop⟩
      by_contra hn
      rw [sortLoop_noTop _ _ _ (fun hcond => hn ⟨hcond.2, hcond.1⟩)] at hb
      rw [fullSortSpec] at hb
      cases hrev : (mapWithIdx (fun i d => (i, d)) 0 p.order_by).reverse with
      | nil => rw [hrev] at hb; cases hb
      | cons jd rest =>
          rw [hrev] at hb
          have hb2 := Option.some.inj hb
          rw [← hb2] at htop
          rw [containsTopN_fold rest _ (by simp [containsTopN])] at htop
          cases htop
    · rintro ⟨hlen, hlim⟩
      obtain ⟨d, hd⟩ : ∃ d, p.order_by = [d] := by
        cases hob : p.order_by with
        | nil => rw [hob] at hlen; cases hlen
        | cons d rest =>
            cases rest with
            | nil => exact ⟨d, rfl⟩
            | cons d2 rest2 => rw [hob] at hlen; simp at hlen
      rw [hd]
      exact ⟨_, sortLoop_single d _ _ hlim, by simp [containsTopN]⟩
  · intro d hd hlim
    rw [hd]
    exact sortLoop_single d _ _ hlim
  · intro hn
    exact sortLoop_noTop _ _ _ (fun hcond => hn ⟨hcond.2, hcond.1⟩)
  · intro out hout
    simp only [runScanSym] at hout
    split at hout
    · cases hout
    · split at hout
      · cases hout
      · injection hout with h2
        subst h2
        rfl

/-- C6 (witness): the theorem's top-n case at one order-by key with a small
limit, and the full-sort case at two keys with a large limit. -/
theorem c6_witness :
    sortLoop pScanW.order_by (pScanW.limit.limit + pScanW.limit.offset) pScanW.partition_length
      = some (Buf.topN (Buf.ranking 0) (pScanW.limit.limit + pScanW.limit.offset) true)
    ∧ sortLoop pScanW2.order_by (pScanW2.limit.limit + pScanW2.limit.offset)
        pScanW2.partition_length
      = fullSortSpec pScanW2.order_by :=
  ⟨(c6_theorem pScanW).2.1 true rfl (by decide),
   (c6_theorem pScanW2).2.2.1 (by decide)⟩

/-- C9: in `run`, the `Filter::Indices` arm of the sort-index filter-fusion
match is unreachable: the filter produced by the initial filter-compilation
match is never `Filter::Indices`, it is not reassigned before fusion, and
the fusion step therefore never reaches its `unreachable!()` arm. -/
theorem c9_theorem (p : ScanParams) :
    filterIsIndices (initialFilter p.filterEnc) = false
      ∧ hitsUnreachable (runScanSym p) = false := by
  constructor
  · cases p.filterEnc <;> simp [initialFilter, filterIsIndices]
  · simp only [runScanSym]
    cases hsi : sortLoop p.order_by (p.limit.limit + p.limit.offset) p.partition_length with
    | none => cases hh : p.columns.head? <;> simp [hitsUnreachable]
    | some s =>
        cases henc : p.filterEnc <;> cases hh : p.columns.head? <;>
          simp [initialFilter, fuseFilter, hitsUnreachable]

/-- C10: `run` obtains the row count by unconditionally unwrapping
`columns.iter().next()`: with a non-empty column map the unwrap never fails
and yields the first column's length; with an empty column map `run` has no
defined result (the empty-unwrap panic, no fallback to `partition_length`);
whereas `run_aggregate` falls back to a row count of 1 when `columns` is
empty. -/
theorem c10_theorem (p : ScanParams) (pa : AggParams) :
    (p.columns ≠ [] →
       ∃ out, runScanSym p = .ok out
         ∧ some out.row_count = p.columns.head?.map (fun c => c.2))
    ∧ (p.columns = [] → runScanSym p = .error ScanPanic.emptyColumnsUnwrap)
    ∧ (pa.columns = [] → ∀ out, runAggregateSym pa = .ok out → out.rowCount = 1) := by
  refine ⟨?_, ?_, ?_⟩
  · intro hne
    cases hcols : p.columns with
    | nil => exact absurd hcols hne
    | cons c cols =>
        simp only [runScanSym]
        cases hsi : sortLoop p.order_by (p.limit.limit + p.limit.offset) p.partition_length with
        | none =>
            simp only [hcols, List.head?_cons]
            exact ⟨_, rfl, rfl⟩
        | some s =>
            cases henc : p.filterEnc <;>
              (simp only [hcols, List.head?_cons]; exact ⟨_, rfl, rfl⟩)
  · intro hc
    simp only [runScanSym]
    cases hsi : sortLoop p.order_by (p.limit.limit + p.limit.offset) p.partition_length with
    | none => simp [hc]
    | some s => cases henc : p.filterEnc <;> simp [initialFilter, fuseFilter, hc]
  · intro hc out hout
    simp only [runAggregateSym] at hout
    split at hout
    · cases hout
    · split at hout
      · cases hout
      · injection hout with h2
        subst h2
        simp [hc]

/-- C10 (witness): the theorem applied at a non-empty and at an empty
column map, and the aggregate fallback at an empty column map. -/
theorem c10_witness :
    (∃ out, runScanSym pScanW = .ok out
       ∧ some out.row_count = pScanW.columns.head?.map (fun c => c.2))
    ∧ runScanSym pScanW2 = .error ScanPanic.emptyColumnsUnwrap
    ∧ (AggOut.mk [] [] 1).rowCount = 1 :=
  ⟨(c10_theorem pScanW pAggEmpty).1 (by decide),
   (c10_theorem pScanW2 pAggEmpty).2.1 rfl,
   (c10_theorem pScanW pAggEmpty).2.2 rfl (AggOut.mk [] [] 1) rfl⟩

/-! ### Claim C7 -/

/-- C7: `run_aggregate` fails with `NotImplemented` exactly when the
grouping-key type is not order-preserving, the raw grouping-key type is
also not order-preserving, and the number of grouping columns is not
exactly one; with exactly one grouping column in that situation it instead
sorts by that column's decoded values, and when the raw grouping-key type
is order-preserving it sorts by the encoded group-by column, applying the
resulting permutation via `select` to every aggregation column and
grouping column.  (Validation failures are `FatalError` per the spec.) -/
theorem c7_theorem (p : AggParams)
    (hv : p.validation = Option.none ∨ p.validation = some QueryError.FatalError) :
    (runAggregateSym p = .error QueryError.NotImplemented
       ↔ ((aggPhase1 p).groupingKeyType.is_order_preserving = false
            ∧ p.rawType.is_order_preserving = false
            ∧ (aggPhase1 p).groupingColumns.length ≠ 1))
    ∧ ((aggPhase1 p).groupingKeyType.is_order_preserving = false →
        p.rawType.is_order_preserving = true → p.validation = Option.none →
        runAggregateSym p = .ok
          { aggCols := (aggPhase1 p).aggColsCompacted.map (fun ba =>
              (Buf.selectOp ba.1 (Buf.sortBy (aggPhase1 p).encodedGroupByColumn
                (Buf.indicesOf (aggPhase1 p).encodedGroupByColumn) false false), ba.2)),
            groupingCols := (aggPhase1 p).groupingColumns.map (fun g2 =>
              Buf.selectOp g2 (Buf.sortBy (aggPhase1 p).encodedGroupByColumn
                (Buf.indicesOf (aggPhase1 p).encodedGroupByColumn) false false)),
            rowCount := (p.columns.head?.map (fun c => c.2)).getD 1 })
    ∧ (∀ g0, (aggPhase1 p).groupingKeyType.is_order_preserving = false →
        p.rawType.is_order_preserving = false → p.validation = Option.none →
        (aggPhase1 p).groupingColumns = [g0] →
        runAggregateSym p = .ok
          { aggCols := (aggPhase1 p).aggColsCompacted.map (fun ba =>
              (Buf.selectOp ba.1 (Buf.sortBy g0 (Buf.indicesOf g0) false false), ba.2)),
            groupingCols := [Buf.selectOp g0 (Buf.sortBy g0 (Buf.indicesOf g0) false false)],
            rowCount := (p.columns.head?.map (fun c => c.2)).getD 1 }) := by
  cases hg : (aggPhase1 p).groupingKeyType.is_order_preserving with
  | true =>
      refine ⟨⟨fun herr => ?_, fun hrhs => ?_⟩, fun h1 _ _ => ?_, fun g0 h1 _ _ _ => ?_⟩
      · exfalso
        rcases hv with hv | hv <;> simp [runAggregateSym, fixup, hg, hv] at herr
      · simp [hg] at hrhs
      · simp [hg] at h1
      · simp [hg] at h1
  | false =>
      cases hr : p.rawType.is_order_preserving with
      | true =>
          refine ⟨⟨fun herr => ?_, fun hrhs => ?_⟩, fun _ _ hvn => ?_, fun g0 _ h2 _ _ => ?_⟩
          · exfalso
            rcases hv with hv | hv <;> simp [runAggregateSym, fixup, hg, hr, hv] at herr
          · simp [hr] at hrhs
          · simp [runAggregateSym, fixup, hg, hr, hvn]
          · simp [hr] at h2
      | false =>
          cases hgrp : (aggPhase1 p).groupingColumns with
          | nil =>
              refine ⟨⟨fun _ => ⟨rfl, rfl, by simp [hgrp]⟩, fun _ => ?_⟩,
                fun _ h2 _ => ?_, fun g0 _ _ _ hlist => ?_⟩
              · simp [runAggregateSym, fixup, hg, hr, hgrp]
              · simp [hr] at h2
              · simp [hgrp] at hlist
          | cons g gs =>
              cases gs with
              | nil =>
                  refine ⟨⟨fun herr => ?_, fun hrhs => ?_⟩,
                    fun _ h2 _ => ?_, fun g0 _ _ hvn hlist => ?_⟩
                  · exfalso
                    rcases hv with hv | hv <;>
                      simp [runAggregateSym, fixup, hg, hr, hgrp, hv] at herr
                  · exact absurd rfl hrhs.2.2
                  · simp [hr] at h2
                  · have hgg : g = g0 := (List.cons.inj hlist).1
                    subst hgg
                    simp [runAggregateSym, fixup, hg, hr, hgrp, hvn]
              | cons g2 gs2 =>
                  refine ⟨⟨fun _ => ⟨rfl, rfl, by simp [hgrp]⟩, fun _ => ?_⟩,
                    fun _ h2 _ => ?_, fun g0 _ _ _ hlist => ?_⟩
                  · simp [runAggregateSym, fixup, hg, hr, hgrp]
                  · simp [hr] at h2
                  · simp at hlist

/-! ### Helper lemmas for C8: the compact-and-reinsert step -/

theorem mapWithIdx_length {α β : Type} (f : Nat → α → β) :
    ∀ (l : List α) (s : Nat), (mapWithIdx f s l).length = l.length := by
  intro l
  induction l with
  | nil => intro s; simp [mapWithIdx]
  | cons x xs ih => intro s; simp [mapWithIdx, ih]

theorem mapWithIdx_get? {α β : Type} (f : Nat → α → β) :
    ∀ (l : List α) (s k : Nat),
      (mapWithIdx f s l)[k]? = (l[k]?).map (fun a => f (s + k) a) := by
  intro l
  induction l with
  | nil => intro s k; simp [mapWithIdx]
  | cons x xs ih =>
      intro s k
      cases k with
      | zero => simp [mapWithIdx]
      | succ k =>
          simp only [mapWithIdx, List.getElem?_cons_succ, ih]
          have h : s + 1 + k = s + (k + 1) := by omega
          rw [h]

theorem mapWithIdx_comp {α β γ : Type} (g : Nat → β → γ) (f : Nat → α → β) :
    ∀ (l : List α) (s : Nat),
      mapWithIdx g s (mapWithIdx f s l) = mapWithIdx (fun i a => g i (f i a)) s l := by
  intro l
  induction l with
  | nil => intro s; simp [mapWithIdx]
  | cons x xs ih => intro s; simp [mapWithIdx, ih]

theorem mapWithIdx_congr {α β : Type} (f g : Nat → α → β) (h : ∀ i a, f i a = g i a) :
    ∀ (l : List α) (s : Nat), mapWithIdx f s l = mapWithIdx g s l := by
  intro l
  induction l with
  | nil => intro s; simp [mapWithIdx]
  | cons x xs ih => intro s; simp [mapWithIdx, ih, h]

theorem aggLoopGo_results (ts : Nat → QType) :
    ∀ (l : List (Aggregator × Nat)) (i0 : Nat),
      (aggLoopGo ts i0 l).1
        = mapWithIdx (fun i ae => (ae.1, Buf.prepAgg i, ts i)) i0 l := by
  intro l
  induction l with
  | nil => intro i0; simp [aggLoopGo, mapWithIdx]
  | cons ae rest ih => intro i0; simp [aggLoopGo, mapWithIdx, ih]

theorem aggLoopGo_sel (ts : Nat → QType) :
    ∀ (l : List (Aggregator × Nat)) (i0 : Nat) (sk : Buf × Nat),
      (aggLoopGo ts i0 l).2 = some sk → i0 ≤ sk.2 ∧ sk.2 - i0 < l.length := by
  intro l
  induction l with
  | nil => intro i0 sk h; simp [aggLoopGo] at h
  | cons ae rest ih =>
      intro i0 sk h
      simp only [aggLoopGo] at h
      split at h
      next sk2 hrest =>
          obtain ⟨ha, hb⟩ := ih (i0 + 1) sk2 hrest
          injection h with h2
          rw [← h2]
          refine ⟨by omega, ?_⟩
          simp only [List.length_cons]; omega
      next hrest =>
          split at h
          · injection h with h2
            rw [← h2]
            refine ⟨by omega, ?_⟩
            simp only [List.length_cons]; omega
          · cases h

theorem compactPush_none (sel : Buf) :
    ∀ (l : List (Aggregator × Buf × QType)) (s : Nat),
      compactPush sel Option.none s l
        = mapWithIdx (fun _i r => (decodeCompact sel r.1 r.2.1 r.2.2, r.1)) s l := by
  intro l
  induction l with
  | nil => intro s; simp [compactPush, mapWithIdx]
  | cons r rest ih => intro s; simp [compactPush, mapWithIdx, ih]

theorem compactPush_lt (sel : Buf) (j : Nat) :
    ∀ (l : List (Aggregator × Buf × QType)) (s : Nat), j < s →
      compactPush sel (some j) s l
        = mapWithIdx (fun _i r => (decodeCompact sel r.1 r.2.1 r.2.2, r.1)) s l := by
  intro l
  induction l with
  | nil => intro s _; simp [compactPush, mapWithIdx]
  | cons r rest ih =>
      intro s hj
      have hne : ¬(some j = some s) := by simp; omega
      simp only [compactPush, if_neg hne, List.singleton_append, mapWithIdx]
      rw [ih (s + 1) (by omega)]

theorem insert_restore (sel : Buf) :
    ∀ (l : List (Aggregator × Buf × QType)) (s j : Nat), s ≤ j → j - s < l.length →
      ∀ r0 : Aggregator × Buf × QType, l[j - s]? = some r0 →
        insertAt (j - s) (decodeCompact sel r0.1 r0.2.1 r0.2.2, r0.1)
            (compactPush sel (some j) s l)
          = mapWithIdx (fun _i r => (decodeCompact sel r.1 r.2.1 r.2.2, r.1)) s l := by
  intro l
  induction l with
  | nil => intro s j _ h2; simp at h2
  | cons r rest ih =>
      intro s j h1 h2 r0 hr0
      by_cases hj : j = s
      · subst hj
        rw [Nat.sub_self] at hr0 ⊢
        simp only [List.getElem?_cons_zero] at hr0
        injection hr0 with hr2
        subst hr2
        simp only [compactPush, mapWithIdx, insertAt]
        rw [compactPush_lt sel j rest (j + 1) (by omega)]
        simp
      · have hlt : s < j := by omega
        have hk : j - s = (j - (s + 1)) + 1 := by omega
        rw [hk] at hr0 ⊢
        simp only [List.getElem?_cons_succ] at hr0
        have hne : ¬(some j = some s) := by simp; omega
        simp only [compactPush, if_neg hne, List.singleton_append, insertAt, mapWithIdx]
        rw [ih (s + 1) j (by omega) (by simp at h2; omega) r0 hr0]

theorem decodeCompact_eq_rule (sel : Buf) (a : Aggregator) (b : Buf) (t : QType) :
    decodeCompact sel a b t = compactRuleSpec sel a b t := by
  cases a <;> simp [decodeCompact, compactRuleSpec]

theorem aggregationColsStep_spec (sel : Buf) (ts : Nat → QType)
    (aggs : List (Aggregator × Nat)) :
    aggregationColsStep sel ((aggLoopGo ts 0 aggs).2.map (fun sk => sk.2))
        (aggLoopGo ts 0 aggs).1
      = mapWithIdx (fun i ae => (decodeCompact sel ae.1 (Buf.prepAgg i) (ts i), ae.1)) 0 aggs := by
  cases hsel : (aggLoopGo ts 0 aggs).2 with
  | none =>
      have h0 : aggregationColsStep sel (Option.map (fun sk : Buf × Nat => sk.2) Option.none)
          (aggLoopGo ts 0 aggs).1
          = compactPush sel Option.none 0 (aggLoopGo ts 0 aggs).1 := rfl
      rw [h0, compactPush_none, aggLoopGo_results, mapWithIdx_comp]
  | some sk =>
      obtain ⟨_, hb⟩ := aggLoopGo_sel ts aggs 0 sk hsel
      rw [Nat.sub_zero] at hb
      have hlen : sk.2 < (aggLoopGo ts 0 aggs).1.length := by
        rw [aggLoopGo_results, mapWithIdx_length]; exact hb
      have hae : aggs[sk.2]? = some aggs[sk.2] := List.getElem?_eq_getElem hb
      have hres : (aggLoopGo ts 0 aggs).1[sk.2]?
          = some ((aggs[sk.2]).1, Buf.prepAgg sk.2, ts sk.2) := by
        rw [aggLoopGo_results, mapWithIdx_get?, hae]
        simp
      have hins := insert_restore sel (aggLoopGo ts 0 aggs).1 0 sk.2 (by omega)
        (by rw [Nat.sub_zero]; exact hlen) ((aggs[sk.2]).1, Buf.prepAgg sk.2, ts sk.2)
        (by rw [Nat.sub_zero]; exact hres)
      rw [Nat.sub_zero] at hins
      calc aggregationColsStep sel (Option.map (fun sk2 : Buf × Nat => sk2.2) (some sk))
              (aggLoopGo ts 0 aggs).1
          = insertAt sk.2
              (decodeCompact sel (aggs[sk.2]).1 (Buf.prepAgg sk.2) (ts sk.2), (aggs[sk.2]).1)
              (compactPush sel (some sk.2) 0 (aggLoopGo ts 0 aggs).1) := by
            simp only [aggregationColsStep, Option.map_some', hres]
        _ = mapWithIdx (fun _i r => (decodeCompact sel r.1 r.2.1 r.2.2, r.1)) 0
              (aggLoopGo ts 0 aggs).1 := hins
        _ = mapWithIdx (fun i ae => (decodeCompact sel ae.1 (Buf.prepAgg i) (ts i), ae.1))
              0 aggs := by
            rw [aggLoopGo_results, mapWithIdx_comp]

/-! ### Claim C8 -/

/-- C8: in `run_aggregate`, each aggregate is compacted against the
selector (`Sum` via `compact`, `Count` via `nonzero_compact`), then decoded
if its result type is encoded, and the selector aggregate (the `Count` used
as selector, if any) is re-inserted at its original index, so that for
every `i` the `i`-th output aggregation column corresponds to the `i`-th
entry of `self.aggregate`. -/
theorem c8_theorem (p : AggParams) :
    (aggPhase1 p).aggColsCompacted
      = mapWithIdx (fun i ae =>
          (compactRuleSpec (aggPhase1 p).selector ae.1 (Buf.prepAgg i) (p.aggTypes i), ae.1))
          0 p.aggs := by
  have h1 : (aggPhase1 p).aggColsCompacted
      = aggregationColsStep (aggPhase1 p).selector
          ((aggLoopGo p.aggTypes 0 p.aggs).2.map (fun sk => sk.2))
          (aggLoopGo p.aggTypes 0 p.aggs).1 := rfl
  rw [h1, aggregationColsStep_spec]
  exact mapWithIdx_congr _ _
    (fun i ae => by rw [decodeCompact_eq_rule]) p.aggs 0

/-- C7 (witness): the encoded-column sort case at concrete parameters with
hashmap grouping, a non-order-preserving grouping-key type and an
order-preserving raw key. -/
theorem c7_witness :
    runAggregateSym pC7w = .ok
      { aggCols := (aggPhase1 pC7w).aggColsCompacted.map (fun ba =>
          (Buf.selectOp ba.1 (Buf.sortBy (aggPhase1 pC7w).encodedGroupByColumn
            (Buf.indicesOf (aggPhase1 pC7w).encodedGroupByColumn) false false), ba.2)),
        groupingCols := (aggPhase1 pC7w).groupingColumns.map (fun g2 =>
          Buf.selectOp g2 (Buf.sortBy (aggPhase1 pC7w).encodedGroupByColumn
            (Buf.indicesOf (aggPhase1 pC7w).encodedGroupByColumn) false false)),
        rowCount := (pC7w.columns.head?.map (fun c => c.2)).getD 1 } :=
  (c7_theorem pC7w (Or.inl rfl)).2.1 (by decide) (by decide) rfl

end LocustDB
